import Mathlib

/-!
# Verification of the Ada validation-function generator

Shallow embedding of `src/ada_validator_generator.py`: the lexical
normalizer, the declaration extractor (the four regex passes of
`_parse_types`), the field classifier (`_parse_record_fields`), and the
recursive validity synthesizer (`_generate_record_validation` /
`generate_validation_function`).

Strings are processed as `List Char`; catalogs (Python dicts) are
association lists with Python-dict semantics: insertion overwrites the
value at the existing key's position, lookup returns the stored value.
The unbounded Python recursion of the synthesizer is modelled with an
explicit fuel parameter; `none` marks fuel exhaustion, which corresponds
to the Python `RecursionError` on unboundedly deep recursion.
-/

namespace AdaGen

/-- `\s` for the ASCII whitespace characters recognised by Python's `re`. -/
def isSpaceChar (c : Char) : Bool :=
  c = ' ' || c = '\t' || c = '\n' || c = '\r' || c = '\x0b' || c = '\x0c'

/-- `\w` (ASCII): letters, digits and underscore, as in the source's regexes. -/
def isWordChar (c : Char) : Bool :=
  c.isAlpha || c.isDigit || c = '_'

/-- Python `str.strip()`: drop whitespace at both ends. -/
def stripChars (cs : List Char) : List Char :=
  ((cs.dropWhile isSpaceChar).reverse.dropWhile isSpaceChar).reverse

/-- Convert an accumulated character list to a `String`. -/
def ofChars (cs : List Char) : String := cs.asString

/-- Lookup in an association list (Python `dict[k]` / `k in dict`). -/
def assocLookup {α : Type} (l : List (String × α)) (k : String) : Option α :=
  match l with
  | [] => none
  | (k', v) :: rest => if k' = k then some v else assocLookup rest k

/-- Python `dict[k] = v`: overwrite the value at an existing key (keeping its
position) or append a new binding. -/
def dictInsert {α : Type} (l : List (String × α)) (k : String) (v : α) :
    List (String × α) :=
  match l with
  | [] => [(k, v)]
  | (k', v') :: rest =>
    if k' = k then (k, v) :: rest else (k', v') :: dictInsert rest k v

/-- Python `s.split(sep)` for a one-character separator (used with `';'` on
record bodies and `'\n'` on raw content). -/
def splitOnChar (sep : Char) : List Char → List (List Char)
  | [] => [[]]
  | c :: rest =>
    let r := splitOnChar sep rest
    if c = sep then [] :: r
    else
      match r with
      | h :: t => (c :: h) :: t
      | [] => [[c]]

/-- Join pieces with a one-character separator (Python `sep.join`). -/
def joinWithChar (sep : Char) : List (List Char) → List Char
  | [] => []
  | [p] => p
  | p :: rest => p ++ sep :: joinWithChar sep rest

/-! ## Data model (`AdaField`, `AdaRecord`, the `AdaParser` catalogs) -/

/-- `AdaField`: a field in an Ada record (name, nominal type, array flag,
raw bounds text). -/
structure AdaField where
  name : String
  type_name : String
  is_array : Bool
  array_bounds : Option String
deriving DecidableEq

/-- `AdaRecord`: a record type with its ordered field list. -/
structure AdaRecord where
  name : String
  fields : List AdaField
deriving DecidableEq

/-- The `AdaParser` catalogs: record types, enumeration names,
array type → element type, subtype → base type. -/
structure AdaParser where
  types : List (String × AdaRecord)
  enums : List String
  array_types : List (String × String)
  subtypes : List (String × String)
deriving DecidableEq

/-! ## Field classifier (`_parse_record_fields`) -/

/-- The regex `(\w+)\s*\(([^)]+)\)` anchored at the start of a type spec
(source line 131): a base identifier, optional spaces, then a non-empty
parenthesized bounds text.  Returns the base identifier and the verbatim
bounds text. -/
def parseArrayMatch (typeSpec : List Char) : Option (List Char × List Char) :=
  let w := typeSpec.takeWhile isWordChar
  if w.isEmpty then none
  else
    match (typeSpec.dropWhile isWordChar).dropWhile isSpaceChar with
    | '(' :: r3 =>
      let b := r3.takeWhile (fun c => c ≠ ')')
      match r3.dropWhile (fun c => c ≠ ')') with
      | ')' :: _ => if b.isEmpty then none else some (w, b)
      | _ => none
    | _ => none

/-- Classification of one raw type specification (source lines 126-153):
explicit parenthesized bounds force `is_array := true` with the bounds kept
verbatim; otherwise array-ness is resolved by one lookup step through the
array-type catalog, or through a single subtype hop whose base is an
array type or the literal `String`.  Returns `(type_name, is_array, bounds)`. -/
def classifyTypeSpec (P : AdaParser) (type_spec : List Char) :
    String × Bool × Option String :=
  match parseArrayMatch type_spec with
  | some (w, b) => (ofChars w, true, some (ofChars b))
  | none =>
    let tn := ofChars type_spec
    let isArr :=
      if (assocLookup P.array_types tn).isSome then true
      else
        match assocLookup P.subtypes tn with
        | some base =>
          (assocLookup P.array_types base).isSome || base = "String"
        | none => false
    (tn, isArr, none)

/-- One field declaration `name : type_spec` (source lines 114-155); `none`
when the declaration has no `':'` and is skipped. -/
def parseFieldDecl (P : AdaParser) (decl : List Char) : Option AdaField :=
  if decl.contains ':' then
    let namePart := decl.takeWhile (fun c => c ≠ ':')
    let typePart := (decl.dropWhile (fun c => c ≠ ':')).tail
    let res := classifyTypeSpec P (stripChars typePart)
    some ⟨ofChars (stripChars namePart), res.1, res.2.1, res.2.2⟩
  else none

/-- `_parse_record_fields`: split the record body on `';'`, strip each piece,
drop empty pieces, and classify each remaining declaration in order. -/
def parse_record_fields (P : AdaParser) (body : List Char) : List AdaField :=
  (((splitOnChar ';' body).map stripChars).filter
      (fun d => ¬ d.isEmpty)).filterMap (parseFieldDecl P)

/-! ## Validity synthesizer (`_generate_record_validation`) -/

/-- `"   " * indent_level`. -/
def indentStr : Nat → String
  | 0 => ""
  | n + 1 => "   " ++ indentStr n

/-- The generated loop variable `f"i_{field.name}_{indent_level}"`
(source line 175). -/
def loopVarName (fieldName : String) (indentLevel : Nat) : String :=
  "i_" ++ fieldName ++ "_" ++ Nat.repr indentLevel

/-- Element-type resolution for an array field (source lines 179-191):
direct array-alias mapping first, then the literal `String` (elements are
`Character`), then one subtype hop to `String` or to an array alias. -/
def resolveElementType (P : AdaParser) (tn : String) : String :=
  match assocLookup P.array_types tn with
  | some el => el
  | none =>
    if tn = "String" then "Character"
    else
      match assocLookup P.subtypes tn with
      | some base =>
        if base = "String" then "Character"
        else
          match assocLookup P.array_types base with
          | some el => el
          | none => tn
      | none => tn

/-- `_generate_record_validation` (source lines 166-212): walk the fields in
declaration order; an array field produces a `for ... 'Range loop` wrapper
whose body is either the inlined nested record (element type a known record)
or one indexed validity check; a scalar field whose type is a known record is
inlined at the same depth; any other scalar field produces one direct
validity check.  The fuel is the remaining recursion depth available for
descending into nested records — `none` models the Python stack overflowing
on an unboundedly deep descent. -/
def generate_record_validation (P : AdaParser) :
    Nat → List AdaField → String → Nat → Option (List String)
  | fuel, fs, basePath, lvl =>
    let descend : List AdaField → String → Nat → Option (List String) :=
      match fuel with
      | 0 => fun _ _ _ => none
      | fuel' + 1 => generate_record_validation P fuel'
    fs.foldr
      (fun f acc =>
        let head? : Option (List String) :=
          if f.is_array then
            match assocLookup P.types (resolveElementType P f.type_name) with
            | some nested =>
              (descend nested.fields
                  (basePath ++ "." ++ f.name ++ "(" ++
                    loopVarName f.name lvl ++ ")")
                  (lvl + 1)).map
                (fun body =>
                  (indentStr lvl ++ "for " ++ loopVarName f.name lvl ++
                      " in " ++ basePath ++ "." ++ f.name ++ "'Range loop") ::
                    (body ++ [indentStr lvl ++ "end loop;", ""]))
            | none =>
              some [indentStr lvl ++ "for " ++ loopVarName f.name lvl ++
                      " in " ++ basePath ++ "." ++ f.name ++ "'Range loop",
                    indentStr lvl ++ "   Valid := Valid AND " ++ basePath ++
                      "." ++ f.name ++ "(" ++ loopVarName f.name lvl ++
                      ")'Valid;",
                    indentStr lvl ++ "end loop;",
                    ""]
          else
            match assocLookup P.types f.type_name with
            | some nested =>
              descend nested.fields (basePath ++ "." ++ f.name) lvl
            | none =>
              some [indentStr lvl ++ "Valid := Valid AND " ++ basePath ++
                      "." ++ f.name ++ "'Valid;"]
        match head?, acc with
        | some hl, some tl => some (hl ++ tl)
        | _, _ => none)
      (some [])

/-- The lines `_generate_record_validation` emits for one field, with `fuel`
the remaining recursion depth (a nested-record descent runs at `fuel - 1`
and fails when the fuel is exhausted).  This is literally the per-field step
of `generate_record_validation`. -/
def genFieldLines (P : AdaParser) (fuel : Nat) (f : AdaField)
    (basePath : String) (lvl : Nat) : Option (List String) :=
  let descend : List AdaField → String → Nat → Option (List String) :=
    match fuel with
    | 0 => fun _ _ _ => none
    | fuel' + 1 => generate_record_validation P fuel'
  if f.is_array then
    match assocLookup P.types (resolveElementType P f.type_name) with
    | some nested =>
      (descend nested.fields
          (basePath ++ "." ++ f.name ++ "(" ++ loopVarName f.name lvl ++ ")")
          (lvl + 1)).map
        (fun body =>
          (indentStr lvl ++ "for " ++ loopVarName f.name lvl ++ " in " ++
              basePath ++ "." ++ f.name ++ "'Range loop") ::
            (body ++ [indentStr lvl ++ "end loop;", ""]))
    | none =>
      some [indentStr lvl ++ "for " ++ loopVarName f.name lvl ++ " in " ++
              basePath ++ "." ++ f.name ++ "'Range loop",
            indentStr lvl ++ "   Valid := Valid AND " ++ basePath ++ "." ++
              f.name ++ "(" ++ loopVarName f.name lvl ++ ")'Valid;",
            indentStr lvl ++ "end loop;",
            ""]
  else
    match assocLookup P.types f.type_name with
    | some nested => descend nested.fields (basePath ++ "." ++ f.name) lvl
    | none =>
      some [indentStr lvl ++ "Valid := Valid AND " ++ basePath ++ "." ++
              f.name ++ "'Valid;"]

/-- Typed failure of a generation request: the `ValueError` raised for an
unknown type name, or exceeding the recursion depth (`RecursionError`). -/
inductive GenError where
  | unknownType (msg : String)
  | recursionLimit
deriving DecidableEq

/-- `generate_validation_function` (source lines 214-238): fail with a typed
error when the selected name is not in the record catalog, otherwise wrap
the synthesized statement lines in the `Is_Valid` function template. -/
def generate_validation_function (P : AdaParser) (fuel : Nat)
    (type_name : String) : Except GenError String :=
  match assocLookup P.types type_name with
  | none =>
    Except.error (GenError.unknownType
      ("Type '" ++ type_name ++ "' not found in parsed types"))
  | some record =>
    match generate_record_validation P fuel record.fields "Input" 1 with
    | none => Except.error GenError.recursionLimit
    | some all_code =>
      Except.ok
        ("function Is_Valid (Input : " ++ type_name ++
            ") return Boolean is\n   Valid : Boolean;\nbegin\n   Valid := True;\n\n" ++
          (if all_code.isEmpty then "" else String.intercalate "\n" all_code) ++
          "\n   return Valid;\nend Is_Valid;\n")

/-! ## Lexical normalizer (`_remove_comments`, `_normalize_whitespace`) -/

/-- Truncate one line at the first `--` (Ada line comment). -/
def cutLineComment : List Char → List Char
  | '-' :: '-' :: _ => []
  | c :: rest => c :: cutLineComment rest
  | [] => []

/-- `_remove_comments`: split into lines, truncate each at `--`, rejoin. -/
def remove_comments (cs : List Char) : List Char :=
  joinWithChar '\n' ((splitOnChar '\n' cs).map cutLineComment)

/-- `re.sub(r'\s+', ' ', content)`: collapse every maximal whitespace run to
one space.  The flag records whether the previous character was part of a
run already replaced. -/
def collapseWsAux : Bool → List Char → List Char
  | _, [] => []
  | prevWs, c :: rest =>
    if isSpaceChar c then
      if prevWs then collapseWsAux true rest
      else ' ' :: collapseWsAux true rest
    else c :: collapseWsAux false rest

/-- `re.sub(r'\s*;\s*', ';\n', content)`: each semicolon together with the
whitespace around it becomes `";\n"`; the scan is leftmost, non-overlapping.
`skipWs = true` while consuming the whitespace that trails a replaced
semicolon; otherwise `pend` buffers (reversed) a whitespace run that is
emitted as-is unless a semicolon follows it and absorbs it. -/
def semiNormAux : Bool → List Char → List Char → List Char
  | true, _, [] => []
  | true, pend, c :: rest =>
    if isSpaceChar c then semiNormAux true pend rest
    else if c = ';' then ';' :: '\n' :: semiNormAux true [] rest
    else c :: semiNormAux false [] rest
  | false, pend, [] => pend.reverse
  | false, pend, c :: rest =>
    if isSpaceChar c then semiNormAux false (c :: pend) rest
    else if c = ';' then ';' :: '\n' :: semiNormAux true [] rest
    else pend.reverse ++ c :: semiNormAux false [] rest

def semiNorm (cs : List Char) : List Char :=
  semiNormAux false [] cs

/-- `_normalize_whitespace`. -/
def normalize_whitespace (cs : List Char) : List Char :=
  semiNorm (collapseWsAux false cs)

/-! ## Declaration extractor (`_parse_types`)

Each of the four regex patterns is hand-compiled into an anchored matcher
over `List Char`; `scanMatches` replays `re.finditer`: try the pattern at
every position, emit non-overlapping matches left to right, resume after
each match. -/

/-- Case-insensitive literal keyword at the current position (the patterns
carry `re.IGNORECASE`). -/
def matchKeyword : List Char → List Char → Option (List Char)
  | [], rest => some rest
  | _ :: _, [] => none
  | k :: ks, c :: rest =>
    if c.toLower = k.toLower then matchKeyword ks rest else none

/-- `\s+`: at least one whitespace character, consumed maximally. -/
def matchWs1 : List Char → Option (List Char)
  | [] => none
  | c :: rest =>
    if isSpaceChar c then some (rest.dropWhile isSpaceChar) else none

/-- `(\w+)`: capture a maximal non-empty run of word characters. -/
def takeWord (cs : List Char) : Option (List Char × List Char) :=
  let w := cs.takeWhile isWordChar
  if w.isEmpty then none else some (w, cs.dropWhile isWordChar)

/-- `\(([^)]+)\)`: an opening parenthesis, a non-empty run of characters up
to the first closing parenthesis, and that closing parenthesis. -/
def matchParenGroup : List Char → Option (List Char × List Char)
  | '(' :: r =>
    let b := r.takeWhile (fun c => c ≠ ')')
    match r.dropWhile (fun c => c ≠ ')') with
    | ')' :: rest => if b.isEmpty then none else some (b, rest)
    | _ => none
  | _ => none

/-- `\s*;`: optional whitespace then a semicolon. -/
def matchSemi (cs : List Char) : Option (List Char) :=
  match cs.dropWhile isSpaceChar with
  | ';' :: rest => some rest
  | _ => none

/-- The enumeration pattern `type\s+(\w+)\s+is\s*\([^)]+\)\s*;`
(source line 78): returns the captured name and the rest of the input. -/
def matchEnumDecl (cs : List Char) : Option (List Char × List Char) := do
  let r1 ← matchKeyword "type".data cs
  let r2 ← matchWs1 r1
  let (name, r3) ← takeWord r2
  let r4 ← matchWs1 r3
  let r5 ← matchKeyword "is".data r4
  let (_, r6) ← matchParenGroup (r5.dropWhile isSpaceChar)
  let r7 ← matchSemi r6
  pure (name, r7)

/-- The subtype pattern `subtype\s+(\w+)\s+is\s+([^;]+)\s*;`
(source line 83): returns the name, the raw base-type capture, and the rest. -/
def matchSubtypeDecl (cs : List Char) :
    Option ((List Char × List Char) × List Char) := do
  let r1 ← matchKeyword "subtype".data cs
  let r2 ← matchWs1 r1
  let (name, r3) ← takeWord r2
  let r4 ← matchWs1 r3
  let r5 ← matchKeyword "is".data r4
  let r6 ← matchWs1 r5
  let cap := r6.takeWhile (fun c => c ≠ ';')
  if cap.isEmpty then none
  else
    match r6.dropWhile (fun c => c ≠ ';') with
    | ';' :: rest => pure ((name, cap), rest)
    | _ => none

/-- The array pattern
`type\s+(\w+)\s+is\s+array\s*\([^)]+\)\s+of\s+(\w+)\s*;`
(source line 93): returns the name, the element type, and the rest. -/
def matchArrayDecl (cs : List Char) :
    Option ((List Char × List Char) × List Char) := do
  let r1 ← matchKeyword "type".data cs
  let r2 ← matchWs1 r1
  let (name, r3) ← takeWord r2
  let r4 ← matchWs1 r3
  let r5 ← matchKeyword "is".data r4
  let r6 ← matchWs1 r5
  let r7 ← matchKeyword "array".data r6
  let (_, r8) ← matchParenGroup (r7.dropWhile isSpaceChar)
  let r9 ← matchWs1 r8
  let r10 ← matchKeyword "of".data r9
  let r11 ← matchWs1 r10
  let (elem, r12) ← takeWord r11
  let r13 ← matchSemi r12
  pure ((name, elem), r13)

/-- The terminator `end\s+record\s*;` of the record pattern. -/
def matchEndSeq (cs : List Char) : Option (List Char) := do
  let r1 ← matchKeyword "end".data cs
  let r2 ← matchWs1 r1
  let r3 ← matchKeyword "record".data r2
  matchSemi r3

/-- The lazy body search of `(.*?)\s+end\s+record\s*;`: starting right after
the whitespace that follows `record`, find the earliest position whose
whitespace run is followed by the terminator; the accumulated characters
before it are the captured body. -/
def findRecordBody (acc : List Char) : List Char →
    Option (List Char × List Char)
  | [] => none
  | c :: rest =>
    if isSpaceChar c then
      match matchEndSeq ((c :: rest).dropWhile isSpaceChar) with
      | some r4 => some (acc.reverse, r4)
      | none => findRecordBody (c :: acc) rest
    else findRecordBody (c :: acc) rest

/-- The record pattern `type\s+(\w+)\s+is\s+record\s+(.*?)\s+end\s+record\s*;`
(source line 100, `re.DOTALL`): returns the name, the raw body capture, and
the rest.  When no body position at or after the initial whitespace run
works, the regex backtracks that run, which succeeds with an empty body
exactly when the run has at least two characters and is followed directly
by the terminator. -/
def matchRecordDecl (cs : List Char) :
    Option ((List Char × List Char) × List Char) := do
  let r1 ← matchKeyword "type".data cs
  let r2 ← matchWs1 r1
  let (name, r3) ← takeWord r2
  let r4 ← matchWs1 r3
  let r5 ← matchKeyword "is".data r4
  let r6 ← matchWs1 r5
  let r7 ← matchKeyword "record".data r6
  let wsRun := r7.takeWhile isSpaceChar
  if wsRun.isEmpty then none
  else
    let rAfter := r7.dropWhile isSpaceChar
    match findRecordBody [] rAfter with
    | some (body, rest) => pure ((name, body), rest)
    | none =>
      if wsRun.length ≥ 2 then
        match matchEndSeq rAfter with
        | some rest => pure ((name, []), rest)
        | none => none
      else none

/-- `re.finditer` driver: attempt the matcher at every position, collect
non-overlapping matches from left to right.  The fuel (initialised to the
input length) only bounds the number of steps; every step consumes at least
one character, so it is never exhausted early. -/
def scanAux {α : Type} (try0 : List Char → Option (α × List Char)) :
    Nat → List Char → List α
  | 0, _ => []
  | _, [] => []
  | fuel + 1, c :: rest =>
    match try0 (c :: rest) with
    | some (a, r) => a :: scanAux try0 fuel r
    | none => scanAux try0 fuel rest

/-- Scan a whole text for all matches of one pattern. -/
def scanMatches {α : Type} (try0 : List Char → Option (α × List Char))
    (cs : List Char) : List α :=
  scanAux try0 cs.length cs

/-- The subtype pass (source lines 83-90): strip the raw capture, keep its
leading `\w+` if any, and store `subtype → base` with dict overwrite. -/
def subtypeCatalog (cs : List Char) : List (String × String) :=
  (scanMatches matchSubtypeDecl cs).foldl
    (fun d m =>
      match takeWord (stripChars m.2) with
      | some (w, _) => dictInsert d (ofChars m.1) (ofChars w)
      | none => d)
    []

/-- The array pass (source lines 93-97). -/
def arrayCatalog (cs : List Char) : List (String × String) :=
  (scanMatches matchArrayDecl cs).foldl
    (fun d m => dictInsert d (ofChars m.1) (ofChars m.2)) []

/-- The catalogs available when the record pass runs: enumerations, arrays
and subtypes are complete, the record map is still empty. -/
def prelimParser (cs : List Char) : AdaParser :=
  { types := []
    enums := (scanMatches matchEnumDecl cs).map (fun m => ofChars m)
    array_types := arrayCatalog cs
    subtypes := subtypeCatalog cs }

/-- The record matches of the normalized text, in textual order. -/
def recordScan (cs : List Char) : List (List Char × List Char) :=
  scanMatches matchRecordDecl cs

/-- The `AdaRecord` built from one record match (name, raw body), with the
body parsed against the alias catalogs. -/
def recordEntry (P0 : AdaParser) (m : List Char × List Char) : AdaRecord :=
  ⟨ofChars m.1, parse_record_fields P0 m.2⟩

/-- `_parse_types`: all four passes over the same normalized text; the
record pass parses each body with the already-complete alias catalogs and
stores records by name with dict-overwrite semantics. -/
def parse_types (cs : List Char) : AdaParser :=
  let P0 := prelimParser cs
  { P0 with
      types :=
        (recordScan cs).foldl
          (fun d m => dictInsert d (ofChars m.1) (recordEntry P0 m)) [] }

/-- `parse_file` without the file read: normalize, then extract. -/
def parse_content (content : String) : AdaParser :=
  parse_types (normalize_whitespace (remove_comments content.data))

/-- The whole pipeline for one generation run: raw text and selected type
name to generated function text (or typed failure). -/
def run_pipeline (content : String) (type_name : String) (fuel : Nat) :
    Except GenError String :=
  generate_validation_function (parse_content content) fuel type_name

/-! ## The record-reference graph of a catalog

`fieldTarget` is the record name the synthesizer would descend into for a
field (the resolved element type for an array field, the nominal type for a
scalar field); `depEdges` collects every descent edge of the catalog.
`synthTerminates` states that some finite recursion depth suffices for a
generation request — its negation is exactly an unbounded recursion. -/

def fieldTarget (P : AdaParser) (f : AdaField) : String :=
  if f.is_array then resolveElementType P f.type_name else f.type_name

def recordEdges (P : AdaParser) (nr : String × AdaRecord) :
    List (String × String) :=
  nr.2.fields.filterMap (fun f =>
    if (assocLookup P.types (fieldTarget P f)).isSome then
      some (nr.1, fieldTarget P f)
    else none)

def depEdges (P : AdaParser) : List (String × String) :=
  P.types.foldr (fun nr acc => recordEdges P nr ++ acc) []

def synthTerminates (P : AdaParser) (type_name : String) : Prop :=
  ∃ fuel, (generate_validation_function P fuel type_name).isOk

/-! ## Concrete catalogs and inputs used to instantiate the theorems -/

/-- A run with no declared types at all. -/
def emptyParser : AdaParser := ⟨[], [], [], []⟩

/-- Subtype chain `S1 → S2 → A` with `A` an array alias of `Integer`. -/
def chainParser : AdaParser :=
  ⟨[], [], [("A", "Integer")], [("S1", "S2"), ("S2", "A")]⟩

/-- A single subtype `T` whose base is the built-in `String`. -/
def strSubParser : AdaParser := ⟨[], [], [], [("T", "String")]⟩

/-- The cyclic catalog: record `R` whose single field has type `R`. -/
def cyclicField : AdaField := ⟨"Next", "R", false, none⟩

def cyclicRecord : AdaRecord := ⟨"R", [cyclicField]⟩

def cyclicParser : AdaParser := ⟨[("R", cyclicRecord)], [], [], []⟩

/-- The spec's example: `Point` with two integers, `Shape` with an array of
points and a bounded text label, `Point_Array` an array alias of `Point`. -/
def pointRecord : AdaRecord :=
  ⟨"Point", [⟨"X", "Integer", false, none⟩, ⟨"Y", "Integer", false, none⟩]⟩

def shapeRecord : AdaRecord :=
  ⟨"Shape", [⟨"Vertices", "Point_Array", true, some "1 .. 4"⟩,
             ⟨"Label", "String", true, some "1 .. 16"⟩]⟩

def shapeParser : AdaParser :=
  ⟨[("Point", pointRecord), ("Shape", shapeRecord)], [],
    [("Point_Array", "Point")], []⟩

/-- A measure decreasing along `shapeParser`'s record-reference edges. -/
def shapeMeasure : String → Nat := fun s => if s = "Point" then 0 else 1

/-- Two sibling nested records whose array fields share the name `V`. -/
def r1Record : AdaRecord := ⟨"R1", [⟨"V", "Foo", true, some "1 .. 3"⟩]⟩

def r2Record : AdaRecord := ⟨"R2", [⟨"V", "Foo", true, some "1 .. 3"⟩]⟩

def topRecord : AdaRecord :=
  ⟨"Top", [⟨"A", "R1", false, none⟩, ⟨"B", "R2", false, none⟩]⟩

def collideParser : AdaParser :=
  ⟨[("Top", topRecord), ("R1", r1Record), ("R2", r2Record)], [], [], []⟩

/-- An input text declaring two records with the same name `P`. -/
def dupContent : String :=
  "type P is record X : Integer; end record; type P is record Y : Natural; end record;"

/-- The textually later declaration of `P` in `dupContent`. -/
def pLaterRecord : AdaRecord := ⟨"P", [⟨"Y", "Natural", false, none⟩]⟩

/-! ## Decimal representation of `Nat`

`Nat.repr` (used by the loop-variable naming) is rewritten to the fuel-free
`decDigits`, for which digit-character facts and injectivity are proved. -/

/-- Fuel-free decimal digit list of a natural number. -/
def decDigits (n : Nat) : List Char :=
  if n < 10 then [Nat.digitChar n]
  else decDigits (n / 10) ++ [Nat.digitChar (n % 10)]
termination_by n
decreasing_by
  exact Nat.div_lt_self (by omega) (by omega)

theorem toDigitsCore_eq_decDigits :
    ∀ (fuel n : Nat) (ds : List Char), n < fuel →
      Nat.toDigitsCore 10 fuel n ds = decDigits n ++ ds := by
  intro fuel
  induction fuel with
  | zero => intro n ds h; omega
  | succ f ih =>
    intro n ds h
    by_cases h10 : n / 10 = 0
    · have hn : n < 10 := by omega
      simp only [Nat.toDigitsCore, h10, if_true, Nat.mod_eq_of_lt hn]
      rw [decDigits, if_pos hn]
      simp
    · have hn : ¬ n < 10 := by omega
      simp only [Nat.toDigitsCore, h10, if_false]
      rw [ih (n / 10) _ (by
        have : n / 10 < n := Nat.div_lt_self (by omega) (by omega)
        omega)]
      conv_rhs => rw [decDigits]
      rw [if_neg hn]
      simp

theorem natRepr_data (n : Nat) : (Nat.repr n).data = decDigits n := by
  show (Nat.toDigits 10 n).asString.data = decDigits n
  rw [Nat.toDigits, toDigitsCore_eq_decDigits (n + 1) n [] (Nat.lt_succ_self n)]
  simp [List.asString]

theorem digitChar_ne_underscore (m : Nat) : Nat.digitChar m ≠ '_' := by
  by_cases h : m < 16
  · interval_cases m <;> decide
  · have h0 : Nat.digitChar m = '*' := by
      unfold Nat.digitChar
      repeat rw [if_neg (by omega)]
    rw [h0]
    decide

theorem digitChar_inj_lt10 :
    ∀ a b : Nat, a < 10 → b < 10 → Nat.digitChar a = Nat.digitChar b → a = b := by
  intro a b ha hb
  interval_cases a <;> interval_cases b <;> decide

theorem decDigits_lt (n : Nat) (h : n < 10) : decDigits n = [Nat.digitChar n] := by
  rw [decDigits, if_pos h]

theorem decDigits_ge (n : Nat) (h : ¬ n < 10) :
    decDigits n = decDigits (n / 10) ++ [Nat.digitChar (n % 10)] := by
  rw [decDigits, if_neg h]

theorem decDigits_ne_nil (n : Nat) : decDigits n ≠ [] := by
  rw [decDigits]
  split <;> simp

theorem not_mem_underscore_decDigits (n : Nat) : '_' ∉ decDigits n := by
  induction n using Nat.strong_induction_on with
  | _ n ih =>
    rw [decDigits]
    split
    · simp only [List.mem_singleton]
      intro h
      exact digitChar_ne_underscore n h.symm
    · intro h
      rcases List.mem_append.mp h with h1 | h2
      · exact ih (n / 10) (Nat.div_lt_self (by omega) (by omega)) h1
      · simp only [List.mem_singleton] at h2
        exact digitChar_ne_underscore (n % 10) h2.symm

theorem decDigits_inj : ∀ m n : Nat, decDigits m = decDigits n → m = n := by
  intro m
  induction m using Nat.strong_induction_on with
  | _ m ih =>
    intro n h
    by_cases hm : m < 10 <;> by_cases hn : n < 10
    · rw [decDigits_lt m hm, decDigits_lt n hn] at h
      exact digitChar_inj_lt10 m n hm hn (by simpa using h)
    · rw [decDigits_lt m hm, decDigits_ge n hn] at h
      have hlen := congrArg List.length h
      have hpos : 0 < (decDigits (n / 10)).length :=
        List.length_pos.mpr (decDigits_ne_nil (n / 10))
      simp only [List.length_singleton, List.length_append] at hlen
      omega
    · rw [decDigits_ge m hm, decDigits_lt n hn] at h
      have hlen := congrArg List.length h
      have hpos : 0 < (decDigits (m / 10)).length :=
        List.length_pos.mpr (decDigits_ne_nil (m / 10))
      simp only [List.length_singleton, List.length_append] at hlen
      omega
    · rw [decDigits_ge m hm, decDigits_ge n hn] at h
      have hlen : ([Nat.digitChar (m % 10)] : List Char).length =
          ([Nat.digitChar (n % 10)] : List Char).length := by simp
      obtain ⟨h1, h2⟩ := List.append_inj' h hlen
      have hdiv : m / 10 = n / 10 :=
        ih (m / 10) (Nat.div_lt_self (by omega) (by omega)) (n / 10) h1
      have hmod : m % 10 = n % 10 := by
        apply digitChar_inj_lt10 _ _ (Nat.mod_lt _ (by omega)) (Nat.mod_lt _ (by omega))
        simpa using h2
      omega

/-- Splitting at a separator absent from both prefixes is unambiguous. -/
theorem sep_split_inj :
    ∀ (u1 u2 v1 v2 : List Char), '_' ∉ u1 → '_' ∉ u2 →
      u1 ++ '_' :: v1 = u2 ++ '_' :: v2 → u1 = u2 ∧ v1 = v2 := by
  intro u1
  induction u1 with
  | nil =>
    intro u2 v1 v2 _ hu2 h
    cases u2 with
    | nil => simpa using h
    | cons c u2' =>
      simp only [List.nil_append, List.cons_append, List.cons.injEq] at h
      obtain ⟨h1, -⟩ := h
      subst h1
      simp at hu2
  | cons c u1' ih =>
    intro u2 v1 v2 hu1 hu2 h
    cases u2 with
    | nil =>
      simp only [List.cons_append, List.nil_append, List.cons.injEq] at h
      obtain ⟨h1, -⟩ := h
      rw [← h1] at hu1
      simp at hu1
    | cons c2 u2' =>
      simp only [List.cons_append, List.cons.injEq] at h
      obtain ⟨rfl, h2⟩ := h
      have hu1' : '_' ∉ u1' := fun hx => hu1 (List.mem_cons_of_mem _ hx)
      have hu2' : '_' ∉ u2' := fun hx => hu2 (List.mem_cons_of_mem _ hx)
      have hres := ih u2' v1 v2 hu1' hu2' h2
      exact ⟨by rw [hres.1], hres.2⟩

theorem string_data_append (s t : String) : (s ++ t).data = s.data ++ t.data := by
  cases s; cases t; rfl

/-- The generated loop-variable name determines the field name and the
nesting depth: `i_<name>_<depth>` collides only for equal name and depth. -/
theorem loopVarName_inj (n1 n2 : String) (d1 d2 : Nat)
    (h : loopVarName n1 d1 = loopVarName n2 d2) : n1 = n2 ∧ d1 = d2 := by
  have hd := congrArg String.data h
  simp only [loopVarName, string_data_append, natRepr_data] at hd
  have hd' : n1.data ++ '_' :: decDigits d1 = n2.data ++ '_' :: decDigits d2 := by
    have : ('i' :: '_' :: (n1.data ++ '_' :: decDigits d1) : List Char) =
        'i' :: '_' :: (n2.data ++ '_' :: decDigits d2) := by
      simpa [String.data] using hd
    simpa using this
  have hrev : (decDigits d1).reverse ++ '_' :: n1.data.reverse =
      (decDigits d2).reverse ++ '_' :: n2.data.reverse := by
    have := congrArg List.reverse hd'
    simpa [List.reverse_append] using this
  obtain ⟨h1, h2⟩ := sep_split_inj _ _ _ _
    (by simpa using not_mem_underscore_decDigits d1)
    (by simpa using not_mem_underscore_decDigits d2) hrev
  refine ⟨?_, ?_⟩
  · have hdata : n1.data = n2.data := by
      have := congrArg List.reverse h2
      simpa using this
    cases n1
    cases n2
    exact congrArg String.mk hdata
  · exact decDigits_inj d1 d2 (by
      have := congrArg List.reverse h1
      simpa using this)

/-! ## Catalog lemmas -/

theorem assocLookup_mem {α : Type} :
    ∀ {l : List (String × α)} {k : String} {v : α},
      assocLookup l k = some v → (k, v) ∈ l := by
  intro l
  induction l with
  | nil => intro k v h; simp [assocLookup] at h
  | cons p rest ih =>
    intro k v h
    obtain ⟨k', v'⟩ := p
    rw [assocLookup] at h
    split at h
    · next heq =>
      cases h
      exact heq ▸ List.mem_cons_self _ _
    · exact List.mem_cons_of_mem _ (ih h)

theorem assocLookup_dictInsert {α : Type} :
    ∀ (l : List (String × α)) (k k' : String) (v : α),
      assocLookup (dictInsert l k v) k' =
        if k = k' then some v else assocLookup l k' := by
  intro l
  induction l with
  | nil => intro k k' v; simp [dictInsert, assocLookup]
  | cons p rest ih =>
    intro k k' v
    obtain ⟨a, b⟩ := p
    by_cases hak : a = k
    · subst hak
      simp only [dictInsert, if_pos rfl, assocLookup]
      by_cases hkk : a = k'
      · simp [hkk]
      · simp [hkk]
    · simp only [dictInsert, if_neg hak, assocLookup, ih]
      by_cases hak' : a = k'
      · subst hak'
        have : ¬ k = a := fun hc => hak hc.symm
        simp [this]
      · simp [hak']

theorem getLast?_cons_of_ne_nil {α : Type} (a : α) :
    ∀ {l : List α}, l ≠ [] → (a :: l).getLast? = l.getLast?
  | [], h => absurd rfl h
  | _ :: _, _ => List.getLast?_cons_cons

theorem getLast?_eq_none_iff {α : Type} :
    ∀ {l : List α}, l.getLast? = none ↔ l = [] := by
  intro l
  cases l with
  | nil => simp
  | cons a t =>
    constructor
    · intro h
      cases t with
      | nil => simp at h
      | cons b t' =>
        rw [List.getLast?_cons_cons] at h
        have := (getLast?_eq_none_iff (l := b :: t')).mp h
        simp at this
    · intro h; simp at h

/-- Looking a key up after a fold of dict insertions returns the value of the
last entry carrying that key (Python's silent-overwrite dict semantics). -/
theorem assocLookup_foldl_dictInsert {α β : Type} (key : β → String) (val : β → α) :
    ∀ (ms : List β) (init : List (String × α)) (k : String),
      assocLookup (ms.foldl (fun d m => dictInsert d (key m) (val m)) init) k =
        match (ms.filter (fun m => key m = k)).getLast? with
        | some m => some (val m)
        | none => assocLookup init k := by
  intro ms
  induction ms with
  | nil => intro init k; simp
  | cons m rest ih =>
    intro init k
    rw [List.foldl_cons, ih]
    by_cases hk : key m = k
    · rw [List.filter_cons_of_pos (by simpa using hk)]
      cases hrest : (rest.filter (fun m => key m = k)).getLast? with
      | some m' =>
        have hne : rest.filter (fun m => key m = k) ≠ [] := by
          intro hc
          rw [hc] at hrest
          simp at hrest
        rw [getLast?_cons_of_ne_nil _ hne]
        simp only [hrest]
      | none =>
        have hnil : rest.filter (fun m => key m = k) = [] :=
          getLast?_eq_none_iff.mp hrest
        rw [hnil]
        simp only [hrest, List.getLast?_singleton, assocLookup_dictInsert, if_pos hk]
    · rw [List.filter_cons_of_neg (by simpa using hk)]
      cases hrest : (rest.filter (fun m => key m = k)).getLast? with
      | some m' => simp only [hrest]
      | none =>
        simp only [hrest, assocLookup_dictInsert, if_neg hk]

/-! ## Unfolding lemmas for the synthesizer -/

theorem gen_nil (P : AdaParser) (fuel : Nat) (p : String) (d : Nat) :
    generate_record_validation P fuel [] p d = some [] := by
  cases fuel <;> rfl

theorem gen_cons (P : AdaParser) (fuel : Nat) (f : AdaField)
    (rest : List AdaField) (p : String) (d : Nat) :
    generate_record_validation P fuel (f :: rest) p d =
      match genFieldLines P fuel f p d,
            generate_record_validation P fuel rest p d with
      | some hl, some tl => some (hl ++ tl)
      | _, _ => none := by
  cases fuel <;> rfl

theorem genFieldLines_array_record (P : AdaParser) (fuel : Nat) (f : AdaField)
    (p : String) (lvl : Nat) (nested : AdaRecord)
    (harr : f.is_array = true)
    (hlook : assocLookup P.types (resolveElementType P f.type_name) = some nested) :
    genFieldLines P (fuel + 1) f p lvl =
      (generate_record_validation P fuel nested.fields
          (p ++ "." ++ f.name ++ "(" ++ loopVarName f.name lvl ++ ")")
          (lvl + 1)).map
        (fun body =>
          (indentStr lvl ++ "for " ++ loopVarName f.name lvl ++ " in " ++
              p ++ "." ++ f.name ++ "'Range loop") ::
            (body ++ [indentStr lvl ++ "end loop;", ""])) := by
  unfold genFieldLines
  rw [if_pos harr, hlook]

theorem genFieldLines_array_record_zero (P : AdaParser) (f : AdaField)
    (p : String) (lvl : Nat) (nested : AdaRecord)
    (harr : f.is_array = true)
    (hlook : assocLookup P.types (resolveElementType P f.type_name) = some nested) :
    genFieldLines P 0 f p lvl = none := by
  unfold genFieldLines
  rw [if_pos harr, hlook]
  rfl

theorem genFieldLines_array_simple (P : AdaParser) (fuel : Nat) (f : AdaField)
    (p : String) (lvl : Nat)
    (harr : f.is_array = true)
    (hlook : assocLookup P.types (resolveElementType P f.type_name) = none) :
    genFieldLines P fuel f p lvl =
      some [indentStr lvl ++ "for " ++ loopVarName f.name lvl ++ " in " ++
              p ++ "." ++ f.name ++ "'Range loop",
            indentStr lvl ++ "   Valid := Valid AND " ++ p ++ "." ++
              f.name ++ "(" ++ loopVarName f.name lvl ++ ")'Valid;",
            indentStr lvl ++ "end loop;",
            ""] := by
  unfold genFieldLines
  rw [if_pos harr, hlook]

theorem genFieldLines_scalar_record (P : AdaParser) (fuel : Nat) (f : AdaField)
    (p : String) (lvl : Nat) (nested : AdaRecord)
    (harr : f.is_array = false)
    (hlook : assocLookup P.types f.type_name = some nested) :
    genFieldLines P (fuel + 1) f p lvl =
      generate_record_validation P fuel nested.fields (p ++ "." ++ f.name) lvl := by
  unfold genFieldLines
  rw [if_neg (by simp [harr]), hlook]

theorem genFieldLines_scalar_record_zero (P : AdaParser) (f : AdaField)
    (p : String) (lvl : Nat) (nested : AdaRecord)
    (harr : f.is_array = false)
    (hlook : assocLookup P.types f.type_name = some nested) :
    genFieldLines P 0 f p lvl = none := by
  unfold genFieldLines
  rw [if_neg (by simp [harr]), hlook]

theorem genFieldLines_scalar_simple (P : AdaParser) (fuel : Nat) (f : AdaField)
    (p : String) (lvl : Nat)
    (harr : f.is_array = false)
    (hlook : assocLookup P.types f.type_name = none) :
    genFieldLines P fuel f p lvl =
      some [indentStr lvl ++ "Valid := Valid AND " ++ p ++ "." ++
              f.name ++ "'Valid;"] := by
  unfold genFieldLines
  rw [if_neg (by simp [harr]), hlook]

/-! ## Termination of the synthesizer on measured (acyclic) graphs -/

theorem foldr_edges_mem (P : AdaParser) :
    ∀ (l : List (String × AdaRecord)) (nr : String × AdaRecord)
      (e : String × String),
      nr ∈ l → e ∈ recordEdges P nr →
      e ∈ l.foldr (fun nr acc => recordEdges P nr ++ acc) [] := by
  intro l
  induction l with
  | nil => simp
  | cons x xs ih =>
    intro nr e hmem he
    rw [List.foldr_cons]
    rcases List.mem_cons.mp hmem with h | h
    · subst h
      exact List.mem_append.mpr (Or.inl he)
    · exact List.mem_append.mpr (Or.inr (ih nr e h he))

theorem mem_depEdges {P : AdaParser} {a : String} {rec : AdaRecord} {f : AdaField}
    (ha : (a, rec) ∈ P.types) (hf : f ∈ rec.fields)
    (ht : (assocLookup P.types (fieldTarget P f)).isSome = true) :
    (a, fieldTarget P f) ∈ depEdges P := by
  apply foldr_edges_mem P P.types (a, rec) _ ha
  unfold recordEdges
  apply List.mem_filterMap.mpr
  refine ⟨f, hf, ?_⟩
  rw [if_pos ht]

/-- When the catalog's record-reference edges strictly decrease a measure,
fuel one beyond the measure suffices for the whole recursive synthesis. -/
theorem gen_some_of_measure (P : AdaParser) (μ : String → Nat)
    (hM : ∀ e ∈ depEdges P, μ e.2 < μ e.1) :
    ∀ (n : Nat) (a : String) (rec : AdaRecord),
      assocLookup P.types a = some rec → μ a ≤ n →
      ∀ (fs : List AdaField), (∀ f ∈ fs, f ∈ rec.fields) →
      ∀ (p : String) (d : Nat),
        (generate_record_validation P (n + 1) fs p d).isSome := by
  intro n
  induction n using Nat.strong_induction_on with
  | _ n ihn =>
    intro a rec ha hμ fs
    induction fs with
    | nil =>
      intro _ p d
      rw [gen_nil]
      rfl
    | cons f rest ihfs =>
      intro hmem p d
      have hf : f ∈ rec.fields := hmem f (List.mem_cons_self f rest)
      have hrest : ∀ g ∈ rest, g ∈ rec.fields := fun g hg =>
        hmem g (List.mem_cons_of_mem f hg)
      have htail : (generate_record_validation P (n + 1) rest p d).isSome :=
        ihfs hrest p d
      have hhead : (genFieldLines P (n + 1) f p d).isSome := by
        by_cases harr : f.is_array
        · cases hlook : assocLookup P.types (resolveElementType P f.type_name) with
          | none =>
            rw [genFieldLines_array_simple P (n + 1) f p d harr hlook]
            rfl
          | some nested =>
            have htgt : fieldTarget P f = resolveElementType P f.type_name := by
              unfold fieldTarget
              rw [if_pos harr]
            have hedge : (a, fieldTarget P f) ∈ depEdges P :=
              mem_depEdges (assocLookup_mem ha) hf (by rw [htgt, hlook]; rfl)
            have hμt : μ (fieldTarget P f) < μ a := hM _ hedge
            obtain ⟨n', hn'⟩ : ∃ n', n = n' + 1 := ⟨n - 1, by omega⟩
            subst hn'
            rw [genFieldLines_array_record P (n' + 1) f p d nested harr hlook]
            have hs := ihn n' (by omega) (fieldTarget P f) nested
              (by rw [htgt]; exact hlook) (by omega) nested.fields
              (fun _ hx => hx)
              (p ++ "." ++ f.name ++ "(" ++ loopVarName f.name d ++ ")") (d + 1)
            obtain ⟨body, hbody⟩ := Option.isSome_iff_exists.mp hs
            rw [hbody]
            rfl
        · have harr' : f.is_array = false := by
            cases hb : f.is_array
            · rfl
            · exact absurd hb harr
          cases hlook : assocLookup P.types f.type_name with
          | none =>
            rw [genFieldLines_scalar_simple P (n + 1) f p d harr' hlook]
            rfl
          | some nested =>
            have htgt : fieldTarget P f = f.type_name := by
              unfold fieldTarget
              rw [if_neg (by simp [harr'])]
            have hedge : (a, fieldTarget P f) ∈ depEdges P :=
              mem_depEdges (assocLookup_mem ha) hf (by rw [htgt, hlook]; rfl)
            have hμt : μ (fieldTarget P f) < μ a := hM _ hedge
            obtain ⟨n', hn'⟩ : ∃ n', n = n' + 1 := ⟨n - 1, by omega⟩
            subst hn'
            rw [genFieldLines_scalar_record P (n' + 1) f p d nested harr' hlook]
            exact ihn n' (by omega) (fieldTarget P f) nested
              (by rw [htgt]; exact hlook) (by omega) nested.fields
              (fun _ hx => hx) (p ++ "." ++ f.name) d
      obtain ⟨hl, hhl⟩ := Option.isSome_iff_exists.mp hhead
      obtain ⟨tl, htl⟩ := Option.isSome_iff_exists.mp htail
      rw [gen_cons, hhl, htl]
      rfl

/-! ## Nontermination on the cyclic catalog -/

theorem cyclic_gen_none :
    ∀ (fuel : Nat) (p : String) (d : Nat),
      generate_record_validation cyclicParser fuel [cyclicField] p d = none := by
  intro fuel
  induction fuel with
  | zero =>
    intro p d
    rw [gen_cons,
      genFieldLines_scalar_record_zero cyclicParser cyclicField p d cyclicRecord
        rfl rfl]
  | succ fuel' ih =>
    intro p d
    rw [gen_cons,
      genFieldLines_scalar_record cyclicParser fuel' cyclicField p d cyclicRecord
        rfl rfl]
    have : cyclicRecord.fields = [cyclicField] := rfl
    rw [this, ih]

theorem cyclic_fullgen_error (fuel : Nat) :
    generate_validation_function cyclicParser fuel "R" =
      Except.error GenError.recursionLimit := by
  unfold generate_validation_function
  simp only [show assocLookup cyclicParser.types "R" = some cyclicRecord from rfl,
    show cyclicRecord.fields = [cyclicField] from rfl,
    cyclic_gen_none fuel "Input" 1]

/-! ## Order-preservation lemmas -/

theorem splitOnChar_ne_nil (sep : Char) :
    ∀ (l : List Char), splitOnChar sep l ≠ [] := by
  intro l
  cases l with
  | nil => simp [splitOnChar]
  | cons c rest =>
    simp only [splitOnChar]
    split
    · simp
    · split
      · simp
      · simp

theorem splitOnChar_append (sep : Char) :
    ∀ (b1 b2 : List Char),
      splitOnChar sep (b1 ++ sep :: b2) =
        splitOnChar sep b1 ++ splitOnChar sep b2 := by
  intro b1 b2
  induction b1 with
  | nil => simp [splitOnChar]
  | cons c rest ih =>
    by_cases hc : c = sep
    · subst hc
      simp [splitOnChar, ih]
    · simp only [List.cons_append, splitOnChar, List.append_eq, if_neg hc, ih]
      cases hsplit : splitOnChar sep rest with
      | nil => exact absurd hsplit (splitOnChar_ne_nil sep rest)
      | cons h t => simp

theorem parse_record_fields_append (P : AdaParser) (b1 b2 : List Char) :
    parse_record_fields P (b1 ++ ';' :: b2) =
      parse_record_fields P b1 ++ parse_record_fields P b2 := by
  unfold parse_record_fields
  rw [splitOnChar_append, List.map_append, List.filter_append,
    List.filterMap_append]

theorem gen_append (P : AdaParser) (fuel : Nat) :
    ∀ (fs1 fs2 : List AdaField) (p : String) (d : Nat),
      generate_record_validation P fuel (fs1 ++ fs2) p d =
        match generate_record_validation P fuel fs1 p d,
              generate_record_validation P fuel fs2 p d with
        | some l1, some l2 => some (l1 ++ l2)
        | _, _ => none := by
  intro fs1
  induction fs1 with
  | nil =>
    intro fs2 p d
    rw [List.nil_append, gen_nil]
    cases h : generate_record_validation P fuel fs2 p d <;> simp
  | cons f rest ih =>
    intro fs2 p d
    rw [List.cons_append, gen_cons, ih, gen_cons]
    cases h1 : genFieldLines P fuel f p d <;>
      cases h2 : generate_record_validation P fuel rest p d <;>
      cases h3 : generate_record_validation P fuel fs2 p d <;>
      simp [List.append_assoc]

/-! ## Claim C1 -/

/-- C1, counterexample.  The claim says a field declared with explicit bounds
on the built-in text type, such as Label : String (1 .. 16), is classified as
scalar and receives exactly one whole-value check Input.Label'Valid.  On the
code, the classifier marks it as an array (any parenthesized bound list sets
is_array, source line 137), and the synthesizer emits a per-character loop
over Input.Label'Range with Character elements (source lines 182-184, 200),
not the single direct check. -/
theorem C1_counterexample :
    classifyTypeSpec emptyParser "String (1 .. 16)".data =
      ("String", true, some "1 .. 16") ∧
    generate_record_validation emptyParser 5
        [⟨"Label", "String", true, some "1 .. 16"⟩] "Input" 1 =
      some ["   for i_Label_1 in Input.Label'Range loop",
            "      Valid := Valid AND Input.Label(i_Label_1)'Valid;",
            "   end loop;",
            ""] ∧
    generate_record_validation emptyParser 5
        [⟨"Label", "String", true, some "1 .. 16"⟩] "Input" 1 ≠
      some ["   Valid := Valid AND Input.Label'Valid;"] :=
  ⟨by decide, by decide, by decide⟩

/-- C1, amended.  A record field whose type spec carries an explicit
parenthesized bound list with base identifier String is classified as an
ARRAY (bounds kept verbatim), and — provided String is not itself an
array-alias name and Character is not a record name, which holds for every
catalog this grammar can produce — the synthesizer emits a per-character
loop over the field's 'Range with an indexed validity check per element,
never a single whole-value check. -/
theorem C1_string_bounds_array_perchar (P : AdaParser) (spec b : List Char)
    (f : AdaField) (path : String) (lvl fuel : Nat)
    (hmatch : parseArrayMatch spec = some ("String".data, b))
    (harr : f.is_array = true) (htn : f.type_name = "String")
    (hstr : assocLookup P.array_types "String" = none)
    (hchar : assocLookup P.types "Character" = none) :
    classifyTypeSpec P spec = ("String", true, some (ofChars b)) ∧
    genFieldLines P fuel f path lvl =
      some [indentStr lvl ++ "for " ++ loopVarName f.name lvl ++ " in " ++
              path ++ "." ++ f.name ++ "'Range loop",
            indentStr lvl ++ "   Valid := Valid AND " ++ path ++ "." ++
              f.name ++ "(" ++ loopVarName f.name lvl ++ ")'Valid;",
            indentStr lvl ++ "end loop;",
            ""] := by
  constructor
  · unfold classifyTypeSpec
    rw [hmatch]
    rfl
  · have hres : resolveElementType P f.type_name = "Character" := by
      unfold resolveElementType
      rw [htn, hstr]
      simp
    exact genFieldLines_array_simple P fuel f path lvl harr
      (by rw [hres]; exact hchar)

/-- C1, witness: the amended theorem at a concrete bounded text field. -/
theorem C1_witness :
    classifyTypeSpec emptyParser "String (1 .. 8)".data =
      ("String", true, some "1 .. 8") ∧
    genFieldLines emptyParser 3 ⟨"Nm", "String", true, some "1 .. 8"⟩
        "Input" 1 =
      some ["   for i_Nm_1 in Input.Nm'Range loop",
            "      Valid := Valid AND Input.Nm(i_Nm_1)'Valid;",
            "   end loop;",
            ""] :=
  C1_string_bounds_array_perchar emptyParser "String (1 .. 8)".data
    "1 .. 8".data ⟨"Nm", "String", true, some "1 .. 8"⟩ "Input" 1 3
    (by decide) rfl rfl rfl rfl

/-! ## Claim C2 -/

/-- C2, counterexample.  The claim says subtype chains are resolved
transitively to their fixed point, giving an array for a chain of any length
ending at an array-alias, and a scalar for a chain ending at String.  On the
code, the catalog with chain S1 -> S2 -> A (A an array alias of Integer)
classifies a field of type S1 as SCALAR (only one hop is attempted, source
lines 149-153), and the catalog with T -> String classifies a field of type
T as an ARRAY (the text-type case is treated as an array, source line 151),
refuting both parts. -/
theorem C2_counterexample :
    (chainParser.subtypes = [("S1", "S2"), ("S2", "A")] ∧
     chainParser.array_types = [("A", "Integer")] ∧
     classifyTypeSpec chainParser "S1".data = ("S1", false, none)) ∧
    (strSubParser.subtypes = [("T", "String")] ∧
     classifyTypeSpec strSubParser "T".data = ("T", true, none)) :=
  ⟨⟨rfl, rfl, by decide⟩, ⟨rfl, by decide⟩⟩

/-- C2, amended.  For a field with no explicit bound list the classifier
resolves exactly ONE alias hop: (i) a type that is directly an array-alias is
an array; (ii) a type that is a subtype whose immediate base is an
array-alias or the literal String is an array; (iii) a subtype whose
immediate base is neither an array-alias nor String is a scalar — even when
that base is itself a subtype whose own chain ends at an array-alias, so
chains of length at least two are never resolved. -/
theorem C2_one_hop_resolution (P : AdaParser) (spec : List Char)
    (hnp : parseArrayMatch spec = none) :
    ((assocLookup P.array_types (ofChars spec)).isSome = true →
      classifyTypeSpec P spec = (ofChars spec, true, none)) ∧
    (∀ base, assocLookup P.array_types (ofChars spec) = none →
      assocLookup P.subtypes (ofChars spec) = some base →
      ((assocLookup P.array_types base).isSome = true ∨ base = "String") →
      classifyTypeSpec P spec = (ofChars spec, true, none)) ∧
    (∀ base, assocLookup P.array_types (ofChars spec) = none →
      assocLookup P.subtypes (ofChars spec) = some base →
      assocLookup P.array_types base = none → base ≠ "String" →
      classifyTypeSpec P spec = (ofChars spec, false, none)) := by
  refine ⟨?_, ?_, ?_⟩
  · intro hdir
    unfold classifyTypeSpec
    rw [hnp]
    simp [hdir]
  · intro base hnodir hsub hone
    unfold classifyTypeSpec
    rw [hnp]
    simp only [hnodir, Option.isSome_none, Bool.false_eq_true, if_false, hsub]
    rcases hone with h | h
    · simp [h]
    · simp [h]
  · intro base hnodir hsub hnoarr hnostr
    unfold classifyTypeSpec
    rw [hnp]
    simp [hnodir, hsub, hnoarr, hnostr]

/-- C2, witness: the amended theorem on the chain catalog — S2 (one hop to
the array alias A) is an array, S1 (two hops) stays scalar. -/
theorem C2_witness :
    classifyTypeSpec chainParser "S2".data = ("S2", true, none) ∧
    classifyTypeSpec chainParser "S1".data = ("S1", false, none) :=
  ⟨(C2_one_hop_resolution chainParser "S2".data (by decide)).2.1 "A"
      (by decide) (by decide) (Or.inl (by decide)),
   (C2_one_hop_resolution chainParser "S1".data (by decide)).2.2 "S2"
      (by decide) (by decide) (by decide) (by decide)⟩

/-! ## Claim C3 -/

/-- C3, counterexample.  The claim says the synthesizer terminates on every
finite type graph, including self-referencing ones, with recursion bounded
by structural depth.  On the code there is no cycle guard: for the catalog
with record R whose field Next has type R, no finite recursion depth
suffices — the generation fails at every fuel, i.e. the Python original
recurses until the interpreter's stack limit. -/
theorem C3_counterexample : ¬ synthTerminates cyclicParser "R" := by
  rintro ⟨fuel, hok⟩
  rw [cyclic_fullgen_error fuel] at hok
  exact absurd hok (by decide)

/-- C3, amended.  The synthesizer terminates on every catalog whose
record-reference graph admits a strictly decreasing measure (equivalently,
is acyclic): some finite recursion depth makes the whole generation succeed.
On cyclic graphs (previous counterexample) the recursion is unbounded. -/
theorem C3_terminates_with_measure (P : AdaParser) (μ : String → Nat)
    (hM : ∀ e ∈ depEdges P, μ e.2 < μ e.1)
    (name : String) (rec : AdaRecord)
    (ha : assocLookup P.types name = some rec) :
    synthTerminates P name := by
  refine ⟨μ name + 1, ?_⟩
  unfold generate_validation_function
  have hs := gen_some_of_measure P μ hM (μ name) name rec ha (le_refl _)
    rec.fields (fun _ hx => hx) "Input" 1
  obtain ⟨l, hl⟩ := Option.isSome_iff_exists.mp hs
  simp only [ha, hl]
  rfl

/-- C3, witness: the amended theorem on the spec's Shape and Point catalog
with the measure Point = 0, everything else 1. -/
theorem C3_witness : synthTerminates shapeParser "Shape" :=
  C3_terminates_with_measure shapeParser shapeMeasure (by decide) "Shape"
    shapeRecord (by decide)

/-! ## Claim C4 -/

/-- C4, counterexample.  The claim says any two array fields whose loops are
emitted at the same nesting depth get textually distinct loop variables.  On
the code the variable is built only from the field name and the depth, so
the same-named array fields V of the sibling nested records R1 and R2 —
inlined into Top at the same depth 1 — both receive the loop variable
i_V_1: the two loop headers in the generated output carry the same
variable name. -/
theorem C4_counterexample :
    generate_record_validation collideParser 5 topRecord.fields "Input" 1 =
      some ["   for i_V_1 in Input.A.V'Range loop",
            "      Valid := Valid AND Input.A.V(i_V_1)'Valid;",
            "   end loop;",
            "",
            "   for i_V_1 in Input.B.V'Range loop",
            "      Valid := Valid AND Input.B.V(i_V_1)'Valid;",
            "   end loop;",
            ""] ∧
    loopVarName "V" 1 = "i_V_1" :=
  ⟨by decide, by decide⟩

/-- C4, amended.  The generated loop variable i_(name)_(depth) determines
the field name and the nesting depth: two loops collide exactly when both
the field name and the depth coincide.  In particular an array field nested
inside another array field's loop body (strictly greater depth) always gets
a distinct variable, and two array fields at the same depth get distinct
variables whenever their field names differ. -/
theorem C4_loop_var_distinct (n1 n2 : String) (d1 d2 : Nat)
    (h : n1 ≠ n2 ∨ d1 ≠ d2) :
    loopVarName n1 d1 ≠ loopVarName n2 d2 := by
  intro heq
  obtain ⟨hn, hd⟩ := loopVarName_inj n1 n2 d1 d2 heq
  rcases h with h | h
  · exact h hn
  · exact h hd

/-- C4, witness: distinct names at one depth, and one name at the depths of
an enclosing and an enclosed loop. -/
theorem C4_witness :
    loopVarName "Xs" 1 ≠ loopVarName "Ys" 1 ∧
    loopVarName "V" 1 ≠ loopVarName "V" 2 :=
  ⟨C4_loop_var_distinct "Xs" "Ys" 1 1 (Or.inl (by decide)),
   C4_loop_var_distinct "V" "V" 1 2 (Or.inr (by decide))⟩

/-! ## Claim C5 -/

/-- C5, confirmed.  Requesting synthesis for a name absent from the record
catalog returns the typed failure ValueError with the descriptive message
naming the type, and no generated text is produced (the error carries no
output). -/
theorem C5_unknown_type_failure (P : AdaParser) (fuel : Nat) (name : String)
    (h : assocLookup P.types name = none) :
    generate_validation_function P fuel name =
      Except.error (GenError.unknownType
        ("Type '" ++ name ++ "' not found in parsed types")) := by
  unfold generate_validation_function
  rw [h]

/-- C5, witness: the failure on the Shape catalog for an absent name. -/
theorem C5_witness :
    generate_validation_function shapeParser 10 "Nope" =
      Except.error (GenError.unknownType
        "Type 'Nope' not found in parsed types") :=
  C5_unknown_type_failure shapeParser 10 "Nope" (by decide)

/-! ## Claim C6 -/

/-- C6, confirmed.  A scalar field whose type names a known record is
expanded inline: the nested record's checks are emitted at the same depth
with the field access appended to the accessor path and no loop wrapper.
An array field whose resolved element type names a known record is expanded
as a loop wrapper — header over the field's 'Range, body the nested
record's checks indexed by the loop variable at depth + 1, then the loop
footer. -/
theorem C6_nested_record_expansion (P : AdaParser) (fuel : Nat)
    (f : AdaField) (path : String) (lvl : Nat) (nested : AdaRecord) :
    (f.is_array = false → assocLookup P.types f.type_name = some nested →
      genFieldLines P (fuel + 1) f path lvl =
        generate_record_validation P fuel nested.fields
          (path ++ "." ++ f.name) lvl) ∧
    (f.is_array = true →
      assocLookup P.types (resolveElementType P f.type_name) = some nested →
      genFieldLines P (fuel + 1) f path lvl =
        (generate_record_validation P fuel nested.fields
            (path ++ "." ++ f.name ++ "(" ++ loopVarName f.name lvl ++ ")")
            (lvl + 1)).map
          (fun body =>
            (indentStr lvl ++ "for " ++ loopVarName f.name lvl ++ " in " ++
                path ++ "." ++ f.name ++ "'Range loop") ::
              (body ++ [indentStr lvl ++ "end loop;", ""]))) :=
  ⟨fun h1 h2 => genFieldLines_scalar_record P fuel f path lvl nested h1 h2,
   fun h1 h2 => genFieldLines_array_record P fuel f path lvl nested h1 h2⟩

/-- C6, witness: on the Shape catalog, the scalar nested-record field P is
inlined with no loop, and the array field Vertices (element type Point)
becomes a loop whose body is Point's checks indexed by i_Vertices_1. -/
theorem C6_witness :
    genFieldLines shapeParser 3 ⟨"P", "Point", false, none⟩ "Input" 1 =
      generate_record_validation shapeParser 2 pointRecord.fields
        "Input.P" 1 ∧
    genFieldLines shapeParser 3
        ⟨"Vertices", "Point_Array", true, some "1 .. 4"⟩ "Input" 1 =
      (generate_record_validation shapeParser 2 pointRecord.fields
          "Input.Vertices(i_Vertices_1)" 2).map
        (fun body =>
          "   for i_Vertices_1 in Input.Vertices'Range loop" ::
            (body ++ ["   end loop;", ""])) :=
  ⟨(C6_nested_record_expansion shapeParser 2 ⟨"P", "Point", false, none⟩
      "Input" 1 pointRecord).1 rfl (by decide),
   (C6_nested_record_expansion shapeParser 2
      ⟨"Vertices", "Point_Array", true, some "1 .. 4"⟩
      "Input" 1 pointRecord).2 rfl (by decide)⟩

/-! ## Claim C7 -/

/-- C7, confirmed.  Field order is preserved end to end: the classifier maps
a record body split at a declaration boundary to the concatenation of the
field lists of the two parts in order, and the synthesizer maps a split
field list to the concatenation (under success) of the lines of the two
parts in order — so the emitted checks and loop blocks appear exactly in
declaration order. -/
theorem C7_field_order (P : AdaParser) (b1 b2 : List Char) (fuel : Nat)
    (fs1 fs2 : List AdaField) (p : String) (d : Nat) :
    parse_record_fields P (b1 ++ ';' :: b2) =
      parse_record_fields P b1 ++ parse_record_fields P b2 ∧
    generate_record_validation P fuel (fs1 ++ fs2) p d =
      match generate_record_validation P fuel fs1 p d,
            generate_record_validation P fuel fs2 p d with
      | some l1, some l2 => some (l1 ++ l2)
      | _, _ => none :=
  ⟨parse_record_fields_append P b1 b2, gen_append P fuel fs1 fs2 p d⟩

/-! ## Claim C8 -/

/-- C8, counterexample.  The claim says the verbatim bounds text is echoed
back into the generated loop header.  On the code the loop header is built
from the field path and the 'Range attribute only (source line 176); for a
field with bounds 1 .. 4 the emitted header does not contain the bounds
text at all. -/
theorem C8_counterexample :
    generate_record_validation emptyParser 5
        [⟨"V", "Foo", true, some "1 .. 4"⟩] "Input" 1 =
      some ["   for i_V_1 in Input.V'Range loop",
            "      Valid := Valid AND Input.V(i_V_1)'Valid;",
            "   end loop;",
            ""] ∧
    ¬ ("1 .. 4".data <:+: "   for i_V_1 in Input.V'Range loop".data) :=
  ⟨by decide, by decide⟩

/-- C8, amended.  The text inside an explicit bound list is stored verbatim
as the field's bounds and is never semantically parsed — in fact it is
never read again: the generated output is invariant under replacing the
stored bounds by anything else, and the loop header uses the field path's
'Range attribute instead of the bounds text. -/
theorem C8_bounds_verbatim_unused (P : AdaParser) (spec w b : List Char)
    (f : AdaField) (b' : Option String) (fuel : Nat) (rest : List AdaField)
    (p : String) (lvl : Nat)
    (hmatch : parseArrayMatch spec = some (w, b)) :
    classifyTypeSpec P spec = (ofChars w, true, some (ofChars b)) ∧
    generate_record_validation P fuel
        ({ f with array_bounds := b' } :: rest) p lvl =
      generate_record_validation P fuel (f :: rest) p lvl := by
  constructor
  · unfold classifyTypeSpec
    rw [hmatch]
  · rw [gen_cons, gen_cons]
    have hsame : genFieldLines P fuel { f with array_bounds := b' } p lvl =
        genFieldLines P fuel f p lvl := rfl
    rw [hsame]

/-- C8, witness: the amended theorem at a concrete bounded field — the
bounds are stored verbatim, and replacing them changes nothing in the
output. -/
theorem C8_witness :
    classifyTypeSpec emptyParser "Foo (2 .. 9)".data =
      ("Foo", true, some "2 .. 9") ∧
    generate_record_validation emptyParser 4
        [⟨"W", "Foo", true, some "CHANGED"⟩] "Input" 1 =
      generate_record_validation emptyParser 4
        [⟨"W", "Foo", true, some "2 .. 9"⟩] "Input" 1 :=
  C8_bounds_verbatim_unused emptyParser "Foo (2 .. 9)".data "Foo".data
    "2 .. 9".data ⟨"W", "Foo", true, some "2 .. 9"⟩ (some "CHANGED") 4 []
    "Input" 1 (by decide)

/-! ## Claim C9 -/

/-- C9, confirmed.  The whole pipeline — normalization, extraction,
classification, synthesis — is a pure function of the input text and the
selected type name, so two runs on identical inputs produce byte-identical
output. -/
theorem C9_determinism (c1 c2 n1 n2 : String) (fuel : Nat)
    (hc : c1 = c2) (hn : n1 = n2) :
    run_pipeline c1 n1 fuel = run_pipeline c2 n2 fuel := by
  rw [hc, hn]

/-- C9, witness: two runs on the same record declaration and name. -/
theorem C9_witness :
    run_pipeline "type P is record X : Integer; end record;" "P" 50 =
      run_pipeline "type P is record X : Integer; end record;" "P" 50 :=
  C9_determinism _ _ _ _ 50 rfl rfl

/-! ## Claim C10 -/

/-- C10, confirmed.  The record catalog maps each name to the record built
from the TEXTUALLY LAST declaration match carrying that name (the earlier
declaration is silently overwritten by the dict insertion, never rejected
or merged), and synthesis for a name reads exactly the record stored in the
catalog under that name — hence only the later declaration's fields. -/
theorem C10_later_declaration_wins (content : String) (name : String)
    (fuel : Nat) :
    (assocLookup (parse_content content).types name =
      match ((recordScan (normalize_whitespace
                (remove_comments content.data))).filter
              (fun m => ofChars m.1 = name)).getLast? with
      | some m =>
        some (recordEntry
          (prelimParser (normalize_whitespace (remove_comments content.data)))
          m)
      | none => none) ∧
    (∀ rec, assocLookup (parse_content content).types name = some rec →
      generate_validation_function (parse_content content) fuel name =
        match generate_record_validation (parse_content content) fuel
              rec.fields "Input" 1 with
        | none => Except.error GenError.recursionLimit
        | some all_code =>
          Except.ok
            ("function Is_Valid (Input : " ++ name ++
                ") return Boolean is\n   Valid : Boolean;\nbegin\n   Valid := True;\n\n" ++
              (if all_code.isEmpty then ""
               else String.intercalate "\n" all_code) ++
              "\n   return Valid;\nend Is_Valid;\n")) := by
  constructor
  · have h := assocLookup_foldl_dictInsert
      (fun (m : List Char × List Char) => ofChars m.1)
      (recordEntry (prelimParser
        (normalize_whitespace (remove_comments content.data))))
      (recordScan (normalize_whitespace (remove_comments content.data)))
      [] name
    cases hlast : ((recordScan (normalize_whitespace
          (remove_comments content.data))).filter
        (fun m => ofChars m.1 = name)).getLast? with
    | some m =>
      simp only [hlast] at h
      exact h
    | none =>
      simp only [hlast] at h
      exact h
  · intro rec hlook
    unfold generate_validation_function
    simp only [hlook]

/-- C10, witness: on an input declaring P twice, synthesis reads the later
declaration's fields (the single field Y of type Natural). -/
theorem C10_witness :
    generate_validation_function (parse_content dupContent) 5 "P" =
      match generate_record_validation (parse_content dupContent) 5
            pLaterRecord.fields "Input" 1 with
      | none => Except.error GenError.recursionLimit
      | some all_code =>
        Except.ok
          ("function Is_Valid (Input : " ++ "P" ++
              ") return Boolean is\n   Valid : Boolean;\nbegin\n   Valid := True;\n\n" ++
            (if all_code.isEmpty then ""
             else String.intercalate "\n" all_code) ++
            "\n   return Valid;\nend Is_Valid;\n") :=
  (C10_later_declaration_wins dupContent "P" 5).2 pLaterRecord (by decide)

end AdaGen
